import Mathlib

/-!
Verification of the qmsolver repository: a one-dimensional time-independent
Schroedinger equation solver (finite-difference discretization, dense
symmetric eigendecomposition) together with its example scripts.

The example scripts are embedded directly from the source under
src/scripts.  The core library (grid construction, Hamiltonian assembly,
eigen extraction, normalization, error taxonomy) is not shipped in this
snapshot; those components are modelled from the specification, and each
such definition is marked accordingly in its doc comment.
-/

/-! ## Error taxonomy (modelled from the spec, section 7) -/

/-- Modelled from the spec: the error taxonomy of the core
(InvalidDomainError, ShapeParameterError, DegenerateGridError,
UnsolvableSystemError, NotSolvedError); the qmsolver core package is not in
the source snapshot. -/
inductive QmError where
  | invalidDomain
  | shapeParameter
  | degenerateGrid
  | unsolvableSystem
  | notSolved
deriving DecidableEq

/-! ## Grid (modelled from the spec, section 4.1) -/

/-- Modelled from the spec: uniform grid spacing
dx = (x_max - x_min) / (steps - 1); the Grid component of the qmsolver core
is not in the source snapshot. -/
noncomputable def gridSpacing (x_min x_max : ℝ) (steps : ℕ) : ℝ :=
  (x_max - x_min) / ((steps : ℝ) - 1)

/-- Modelled from the spec: the i-th point of the uniform grid over
[x_min, x_max] with the given number of steps, endpoints included. -/
noncomputable def gridPoint (x_min x_max : ℝ) (steps i : ℕ) : ℝ :=
  x_min + (i : ℝ) * gridSpacing x_min x_max steps

/-- Modelled from the spec: the full uniform grid as an ordered list of
positions. -/
noncomputable def gridList (x_min x_max : ℝ) (steps : ℕ) : List ℝ :=
  (List.range steps).map (gridPoint x_min x_max steps)

/-- Modelled from the spec: grid construction validates its domain and
fails with InvalidDomainError when steps < 2 or x_min >= x_max; stated over
the rationals so that the check is executable.  The happy path returns the
uniform grid over the rational domain. -/
def mkGrid (steps : ℕ) (x_min x_max : ℚ) : Except QmError (List ℚ) :=
  if steps < 2 ∨ x_max ≤ x_min then .error .invalidDomain
  else .ok ((List.range steps).map
    (fun i => x_min + (i : ℚ) * ((x_max - x_min) / ((steps : ℚ) - 1))))

/-- Modelled from the spec: solve fails with UnsolvableSystemError when the
requested count n_lowest exceeds the matrix dimension (the number of grid
points). -/
def checkNLowest (n_lowest steps : ℕ) : Except QmError Unit :=
  if steps < n_lowest then .error .unsolvableSystem else .ok ()

/-! ## SinusoidalWellPotential, from src/scripts/sinusoidal_well.py -/

/-- The sinusoidal well supplier of src/scripts/sinusoidal_well.py: it
stores the spatial grid and the amplitude of the sinusoidal modulation. -/
structure SinusoidalWellPotential where
  x_grid : List ℝ
  amplitude : ℝ

/-- The first mask of generate in src/scripts/sinusoidal_well.py:
np.abs(x_grid) <= np.pi. -/
def wellRegion (x : ℝ) : Prop := |x| ≤ Real.pi

/-- The second mask of generate: (np.abs(x_grid) >= np.pi) and
(np.abs(x_grid) <= (5 / 6 + 2) * np.pi). -/
def barrierRegion (x : ℝ) : Prop :=
  Real.pi ≤ |x| ∧ |x| ≤ (5 / 6 + 2) * Real.pi

/-- The third mask of generate: np.abs(x_grid) >= (5 / 6 + 2) * np.pi. -/
def plateauRegion (x : ℝ) : Prop := (5 / 6 + 2) * Real.pi ≤ |x|

/-- The pointwise value computed by SinusoidalWellPotential.generate: the
sum of the three np.where terms of src/scripts/sinusoidal_well.py evaluated
at one grid position x. -/
noncomputable def sinusoidalValue (A x : ℝ) : ℝ :=
  (if |x| ≤ Real.pi then -A * |Real.sin x| else 0)
  + (if Real.pi ≤ |x| ∧ |x| ≤ (5 / 6 + 2) * Real.pi
      then A * |Real.sin x| else 0)
  + (if (5 / 6 + 2) * Real.pi ≤ |x| then A / 2 else 0)

/-- SinusoidalWellPotential.generate of src/scripts/sinusoidal_well.py:
the elementwise np.where combination mapped over the stored grid. -/
noncomputable def SinusoidalWellPotential.generate
    (s : SinusoidalWellPotential) : List ℝ :=
  s.x_grid.map (sinusoidalValue s.amplitude)

/-- A method call on the supplier, as state passing: the call returns the
generated vector together with the post-call state of the object.  The
Python method body only reads self.x_grid and self.amplitude and assigns no
attribute, so the post-call state is the receiver unchanged. -/
noncomputable def SinusoidalWellPotential.generateCall
    (s : SinusoidalWellPotential) : List ℝ × SinusoidalWellPotential :=
  (s.generate, s)

/-- The grid used by the sinusoidal well script: steps = 2000 over
[-4 pi, 4 pi], as built by FDSolver in src/scripts/sinusoidal_well.py
(grid formula modelled from the spec, section 4.1). -/
noncomputable def sinusoidalScriptGridPoint (i : ℕ) : ℝ :=
  gridPoint (-4 * Real.pi) (4 * Real.pi) 2000 i

/-! ## FDSolver configuration (modelled from the spec) and the finite well
script, from src/scripts/finite_well.py -/

/-- Modelled from the spec: the FDSolver facade holds the grid parameters,
the requested count of lowest eigenstates, and the physical constants,
whose defaults correspond to dimensionless natural units (h_bar = m = 1);
the qmsolver.tise package is not in the source snapshot. -/
structure FDSolver where
  steps : ℕ
  x_min : ℝ
  x_max : ℝ
  n_lowest : ℕ
  h_bar : ℝ := 1
  m : ℝ := 1

/-- The finite square well supplier of qmsolver.potentials as used by the
scripts: it stores the grid, the well depth and the well width (field
layout modelled from the spec; the package is not in the source
snapshot). -/
structure FiniteSquareWellPotential where
  x_grid : List ℝ
  well_depth : ℝ
  well_width : ℝ

/-- The solver instantiated by src/scripts/finite_well.py:
FDSolver(steps=2_000, x_min=-5, x_max=5, n_lowest=7), with h_bar and m
never assigned afterwards, so they keep their defaults. -/
def finiteWellSolver : FDSolver :=
  { steps := 2000, x_min := -5, x_max := 5, n_lowest := 7 }

/-- The potential instantiated by src/scripts/finite_well.py:
FiniteSquareWellPotential(x_grid=solver.x_grid, well_depth=25,
well_width=2). -/
noncomputable def finiteWellPotential : FiniteSquareWellPotential :=
  { x_grid := gridList finiteWellSolver.x_min finiteWellSolver.x_max
      finiteWellSolver.steps,
    well_depth := 25,
    well_width := 2 }

/-! ## EigenSolver (modelled from the spec, section 4.4) -/

/-- Comparison of eigenpairs by eigenvalue, the order in which the
eigensolver returns its pairs. -/
def eigLE {α σ : Type} [LinearOrder α] (p q : α × σ) : Prop := p.1 ≤ q.1

instance eigLEDecidable {α σ : Type} [LinearOrder α] :
    DecidableRel (eigLE (α := α) (σ := σ)) :=
  fun p q => inferInstanceAs (Decidable (p.1 ≤ q.1))

instance eigLETotal {α σ : Type} [LinearOrder α] :
    IsTotal (α × σ) eigLE :=
  ⟨fun p q => le_total p.1 q.1⟩

instance eigLETrans {α σ : Type} [LinearOrder α] :
    IsTrans (α × σ) eigLE :=
  ⟨fun _ _ _ h h2 => le_trans h h2⟩

/-- Modelled from the spec: the EigenSolver returns the n_lowest
eigenvalue and eigenvector pairs with the smallest eigenvalues, sorted
ascending by eigenvalue, ties kept as repeated values; modelled as sorting
the full list of eigenpairs of the decomposition by eigenvalue and taking
the first n_lowest.  The qmsolver core is not in the source snapshot. -/
def eigenSolve {α σ : Type} [LinearOrder α]
    (pairs : List (α × σ)) (n_lowest : ℕ) : List (α × σ) :=
  (pairs.insertionSort eigLE).take n_lowest

/-! ## StateNormalizer (modelled from the spec, section 4.5) -/

/-- The sum of squared components of a wavefunction vector. -/
def sumSq (psi : List ℝ) : ℝ := (psi.map (fun v => v ^ 2)).sum

/-- The Riemann-sum squared norm of a wavefunction on the grid. -/
def riemannNormSq (psi : List ℝ) (dx : ℝ) : ℝ := sumSq psi * dx

/-- Modelled from the spec: the StateNormalizer rescales an eigenvector so
that the Riemann-sum approximation of the squared norm equals one; the
qmsolver core is not in the source snapshot. -/
noncomputable def normalizeState (psi : List ℝ) (dx : ℝ) : List ℝ :=
  psi.map (fun v => v / Real.sqrt (riemannNormSq psi dx))

/-! ## HamiltonianBuilder (modelled from the spec, section 4.3) -/

/-- Modelled from the spec: the discretized kinetic-energy operator, a
tridiagonal matrix with diagonal entries 2 hbar^2 / (2 m dx^2) and
nearest-neighbor entries -(hbar^2 / (2 m dx^2)); the qmsolver core is not
in the source snapshot. -/
noncomputable def kineticMatrix (n : ℕ) (h_bar m dx : ℝ) : Matrix (Fin n) (Fin n) ℝ :=
  Matrix.of fun i j =>
    if i = j then 2 * h_bar ^ 2 / (2 * m * dx ^ 2)
    else if i.val + 1 = j.val ∨ j.val + 1 = i.val then
      -(h_bar ^ 2 / (2 * m * dx ^ 2))
    else 0

/-- Modelled from the spec: the assembled Hamiltonian H = T + V, with V
the diagonal matrix of the potential values. -/
noncomputable def hamiltonian (n : ℕ) (V : Fin n → ℝ) (h_bar m dx : ℝ) :
    Matrix (Fin n) (Fin n) ℝ :=
  kineticMatrix n h_bar m dx + Matrix.diagonal V

/-! ## Infinite square well limit script, from
src/scripts/infinite_square_well_limit.py -/

/-- The analytical reference energy computed by
src/scripts/infinite_square_well_limit.py for index i, in electron volts:
((i + 1) ** 2 * hbar ** 2 * pi ** 2 / (2 * m * L ** 2)) / e. -/
noncomputable def infiniteSquareWellEnergyEV
    (i : ℕ) (h_bar m L e : ℝ) : ℝ :=
  ((i : ℝ) + 1) ^ 2 * h_bar ^ 2 * Real.pi ^ 2 / (2 * m * L ^ 2) / e

/-- The renormalized solver energy of the same script: the returned energy
converted to electron volts plus the well depth in electron volts,
renormalized_energy = energy + well_depth_ev with energy = E / e. -/
noncomputable def renormalizedEnergyEV (E_joules e well_depth_ev : ℝ) : ℝ :=
  E_joules / e + well_depth_ev

/-! ## Theorems -/

/-- Claim C7: the finite well example script instantiates exactly the
concrete scenario of the spec: steps = 2000, x_min = -5, x_max = 5, square
well depth 25, width 2, n_lowest = 7, and natural units h_bar = m = 1
coming from the solver defaults, since the script never assigns h_bar or
m. -/
theorem finiteWell_script_configuration :
    finiteWellSolver.steps = 2000 ∧ finiteWellSolver.x_min = -5 ∧
    finiteWellSolver.x_max = 5 ∧ finiteWellSolver.n_lowest = 7 ∧
    finiteWellPotential.well_depth = 25 ∧
    finiteWellPotential.well_width = 2 ∧
    finiteWellSolver.h_bar = 1 ∧ finiteWellSolver.m = 1 :=
  ⟨rfl, rfl, rfl, rfl, rfl, rfl, rfl, rfl⟩

/-- Claim C8: SinusoidalWellPotential.generate is purely a function of the
stored grid and amplitude: a call leaves the supplier state unchanged
(x_grid and amplitude included), and a second successive call returns the
same potential vector as the first. -/
theorem sinusoidal_generate_pure (s : SinusoidalWellPotential) :
    s.generateCall.2 = s ∧
    (s.generateCall.2.generateCall).1 = s.generateCall.1 ∧
    s.generateCall.2.x_grid = s.x_grid ∧
    s.generateCall.2.amplitude = s.amplitude :=
  ⟨rfl, rfl, rfl, rfl⟩

/-- Claim C6: the analytical reference energy of the infinite square well
limit script is (i + 1)^2 pi^2 hbar^2 / (2 m L^2) with L the well width
(the script stores it divided by e, i.e. converted to electron volts), and
the solver energy is compared to it relative to the well floor: the
renormalized energy is the returned energy (in electron volts) plus the
well depth in electron volts. -/
theorem isw_reference_and_renormalization
    (i : ℕ) (h_bar m L e E depth : ℝ) (he : e ≠ 0) :
    e * infiniteSquareWellEnergyEV i h_bar m L e
      = ((i : ℝ) + 1) ^ 2 * Real.pi ^ 2 * h_bar ^ 2 / (2 * m * L ^ 2) ∧
    renormalizedEnergyEV E e depth = E / e + depth := by
  constructor
  · unfold infiniteSquareWellEnergyEV
    rw [mul_comm e _, div_mul_cancel₀ _ he]
    ring
  · rfl

/-- Witness for claim C6 at i = 0, h_bar = m = L = e = 1, E = 0,
depth = 0. -/
theorem isw_reference_and_renormalization_witness :
    1 * infiniteSquareWellEnergyEV 0 1 1 1 1
      = (((0 : ℕ) : ℝ) + 1) ^ 2 * Real.pi ^ 2 * 1 ^ 2 / (2 * 1 * 1 ^ 2) ∧
    renormalizedEnergyEV 0 1 0 = 0 / 1 + 0 :=
  isw_reference_and_renormalization 0 1 1 1 1 0 0 (by norm_num)

/-- Claim C4: requesting n_lowest greater than the number of grid points
makes solve fail with UnsolvableSystemError, and constructing a grid with
steps < 2 or x_min >= x_max fails with InvalidDomainError; in every such
invalid configuration the error is raised and no result is produced (a
grid is only returned when steps >= 2 and x_min < x_max). -/
theorem invalid_configuration_errors
    (steps n_lowest : ℕ) (x_min x_max : ℚ) :
    (steps < n_lowest →
      checkNLowest n_lowest steps = .error .unsolvableSystem) ∧
    (steps < 2 → mkGrid steps x_min x_max = .error .invalidDomain) ∧
    (x_max ≤ x_min → mkGrid steps x_min x_max = .error .invalidDomain) ∧
    (∀ g, mkGrid steps x_min x_max = .ok g → 2 ≤ steps ∧ x_min < x_max) := by
  refine ⟨?_, ?_, ?_, ?_⟩
  · intro h
    simp [checkNLowest, h]
  · intro h
    simp [mkGrid, h]
  · intro h
    simp [mkGrid, h]
  · intro g hg
    by_cases hc : steps < 2 ∨ x_max ≤ x_min
    · simp [mkGrid, hc] at hg
    · push_neg at hc
      exact hc

/-- Witness for claim C4: a request of 5 lowest states on a 3-point grid,
a 1-step grid, and a grid with coinciding endpoints. -/
theorem invalid_configuration_errors_witness :
    checkNLowest 5 3 = .error .unsolvableSystem ∧
    mkGrid 1 0 1 = .error .invalidDomain ∧
    mkGrid 5 2 2 = .error .invalidDomain :=
  ⟨(invalid_configuration_errors 3 5 0 1).1 (by norm_num),
    (invalid_configuration_errors 1 5 0 1).2.1 (by norm_num),
    (invalid_configuration_errors 5 5 2 2).2.2.1 (by norm_num)⟩

/-- Claim C3: for every grid size, potential vector, spacing and positive
constants h_bar and m, the assembled Hamiltonian equals its own transpose
exactly, entry for entry. -/
theorem hamiltonian_symmetric (n : ℕ) (V : Fin n → ℝ) (h_bar m dx : ℝ)
    (hh : 0 < h_bar) (hm : 0 < m) :
    Matrix.transpose (hamiltonian n V h_bar m dx)
      = hamiltonian n V h_bar m dx := by
  unfold hamiltonian kineticMatrix
  ext i j
  simp only [Matrix.transpose_apply, Matrix.add_apply, Matrix.of_apply,
    Matrix.diagonal_apply]
  by_cases hij : i = j
  · subst hij
    simp
  · have hji : ¬ j = i := fun h => hij h.symm
    have hcond : (j.val + 1 = i.val ∨ i.val + 1 = j.val)
        ↔ (i.val + 1 = j.val ∨ j.val + 1 = i.val) := or_comm
    simp only [if_neg hij, if_neg hji, hcond, add_zero]

/-- Witness for claim C3: the 2 by 2 Hamiltonian with zero potential and
h_bar = m = dx = 1. -/
theorem hamiltonian_symmetric_witness :
    (0 : ℝ) < 1 ∧
    Matrix.transpose (hamiltonian 2 (fun _ => 0) 1 1 1)
      = hamiltonian 2 (fun _ => 0) 1 1 1 :=
  ⟨by norm_num,
    hamiltonian_symmetric 2 (fun _ => 0) 1 1 1 (by norm_num) (by norm_num)⟩

/-- Claim C1: for every list of eigenpairs and every requested count with
n_lowest not exceeding the number of eigenpairs (one per grid point), the
result contains exactly n_lowest eigenstates, their energies are sorted
ascending, and the result is a prefix of a sorted rearrangement of the
full eigenpair list, so degenerate eigenvalues appear as repeated values
with no de-duplication. -/
theorem eigenSolve_count_sorted_no_dedup {α σ : Type} [LinearOrder α]
    (pairs : List (α × σ)) (n_lowest : ℕ) (h : n_lowest ≤ pairs.length) :
    (eigenSolve pairs n_lowest).length = n_lowest ∧
    ((eigenSolve pairs n_lowest).map Prod.fst).Sorted (· ≤ ·) ∧
    ∃ l, List.Perm pairs l ∧ l.Sorted eigLE ∧
      eigenSolve pairs n_lowest = l.take n_lowest := by
  have hperm := List.perm_insertionSort eigLE pairs
  have hsorted := List.sorted_insertionSort eigLE pairs
  refine ⟨?_, ?_, ?_⟩
  · unfold eigenSolve
    rw [List.length_take, hperm.length_eq]
    exact min_eq_left h
  · have hst : List.Sorted eigLE (eigenSolve pairs n_lowest) :=
      List.Pairwise.sublist (List.take_sublist _ _) hsorted
    rw [List.Sorted, List.pairwise_map]
    exact hst
  · exact ⟨pairs.insertionSort eigLE, hperm.symm, hsorted, rfl⟩

/-- Witness for claim C1: four eigenpairs over the rationals with a
degenerate eigenvalue, requesting the three lowest. -/
theorem eigenSolve_count_sorted_no_dedup_witness :
    (eigenSolve [((3 : ℚ), (0 : ℕ)), (1, 1), (2, 2), (2, 3)] 3).length = 3 ∧
    ((eigenSolve [((3 : ℚ), (0 : ℕ)), (1, 1), (2, 2), (2, 3)] 3).map
      Prod.fst).Sorted (· ≤ ·) ∧
    ∃ l, List.Perm [((3 : ℚ), (0 : ℕ)), (1, 1), (2, 2), (2, 3)] l ∧
      l.Sorted eigLE ∧
      eigenSolve [((3 : ℚ), (0 : ℕ)), (1, 1), (2, 2), (2, 3)] 3
        = l.take 3 :=
  eigenSolve_count_sorted_no_dedup
    [((3 : ℚ), (0 : ℕ)), (1, 1), (2, 2), (2, 3)] 3 (by decide)

/-- Squared components scale with the square of a common divisor. -/
theorem sumSq_map_div (psi : List ℝ) (c : ℝ) :
    sumSq (psi.map (fun v => v / c)) = sumSq psi / c ^ 2 := by
  induction psi with
  | nil => simp [sumSq]
  | cons a t ih =>
    simp only [List.map_cons, sumSq, List.sum_cons] at ih ⊢
    rw [ih, div_pow, add_div]

/-- Claim C2: for every wavefunction vector with positive Riemann-sum
squared norm on the grid, the normalized state satisfies the Riemann-sum
normalization exactly: the sum of its squared components times dx equals
one. -/
theorem normalized_state_unit_norm (psi : List ℝ) (dx : ℝ)
    (h : 0 < riemannNormSq psi dx) :
    riemannNormSq (normalizeState psi dx) dx = 1 := by
  have hs : sumSq psi ≠ 0 := by
    intro h0
    rw [riemannNormSq, h0, zero_mul] at h
    exact lt_irrefl 0 h
  have hdx : dx ≠ 0 := by
    intro h0
    rw [riemannNormSq, h0, mul_zero] at h
    exact lt_irrefl 0 h
  unfold normalizeState
  rw [riemannNormSq, sumSq_map_div, Real.sq_sqrt h.le, riemannNormSq]
  field_simp

/-- Witness for claim C2: the single-point wavefunction with value 1 and
unit spacing. -/
theorem normalized_state_unit_norm_witness :
    0 < riemannNormSq [1] 1 ∧ riemannNormSq (normalizeState [1] 1) 1 = 1 :=
  ⟨by norm_num [riemannNormSq, sumSq],
    normalized_state_unit_norm [1] 1 (by norm_num [riemannNormSq, sumSq])⟩

/-- Claim C9: for every amplitude A and every point x with 0 < |x| < pi,
SinusoidalWellPotential.generate computes exactly -A * |sin x| at x: only
the well term contributes there, and the A / 2 term of the class docstring
is not a global offset (whenever A is nonzero the computed value differs
from the docstring formula A / 2 + well contribution). -/
theorem sinusoidal_well_value_inside_well (A x : ℝ)
    (h0 : 0 < |x|) (hx : |x| < Real.pi) :
    sinusoidalValue A x = -A * |Real.sin x| ∧
    (A ≠ 0 → sinusoidalValue A x ≠ A / 2 + -A * |Real.sin x|) := by
  have hpi := Real.pi_pos
  have h1 : |x| ≤ Real.pi := hx.le
  have h2 : ¬ (Real.pi ≤ |x| ∧ |x| ≤ (5 / 6 + 2) * Real.pi) := by
    rintro ⟨hp, -⟩
    exact absurd hx (not_lt.mpr hp)
  have h3 : ¬ ((5 / 6 + 2) * Real.pi ≤ |x|) := by
    intro hp
    linarith
  have hval : sinusoidalValue A x = -A * |Real.sin x| := by
    unfold sinusoidalValue
    rw [if_pos h1, if_neg h2, if_neg h3, add_zero, add_zero]
  refine ⟨hval, fun hA heq => ?_⟩
  rw [hval] at heq
  exact hA (by linarith)

/-- Witness for claim C9: amplitude 5 at the point pi / 2, where the sine
has absolute value 1. -/
theorem sinusoidal_well_value_inside_well_witness :
    sinusoidalValue 5 (Real.pi / 2) = -5 * |Real.sin (Real.pi / 2)| ∧
    ((5 : ℝ) ≠ 0 → sinusoidalValue 5 (Real.pi / 2)
      ≠ 5 / 2 + -5 * |Real.sin (Real.pi / 2)|) :=
  sinusoidal_well_value_inside_well 5 (Real.pi / 2)
    (by rw [abs_of_pos (by positivity)]; positivity)
    (by rw [abs_of_pos (by positivity)]; linarith [Real.pi_pos])

/-- Claim C10: the generated sinusoidal potential is an even function of
position: any two points with the same absolute value receive the same
potential value, because every mask and every value expression depends on
the position only through its absolute value and the absolute value of its
sine. -/
theorem sinusoidal_value_even (A x y : ℝ) (h : |x| = |y|) :
    sinusoidalValue A x = sinusoidalValue A y := by
  rcases abs_eq_abs.mp h with rfl | rfl
  · rfl
  · simp [sinusoidalValue, abs_neg, Real.sin_neg]

/-- Witness for claim C10: amplitude 5 at the mirror points 1 and -1. -/
theorem sinusoidal_value_even_witness :
    sinusoidalValue 5 1 = sinusoidalValue 5 (-1) :=
  sinusoidal_value_even 5 1 (-1) (by norm_num)

/-- Claim C5: on the grid actually used by the sinusoidal well script
(2000 steps over [-4 pi, 4 pi]), the three region masks of
SinusoidalWellPotential.generate are mutually exclusive: no grid point
lands exactly on a region boundary, so at most one of the well, barrier
and plateau masks is active at every grid point, and the value generated
at every grid point is the contribution of a single region (the well term,
the barrier term, or the plateau constant), not a sum of several of
them. -/
theorem sinusoidal_regions_exclusive_on_grid (i : Fin 2000) :
    ¬ (wellRegion (sinusoidalScriptGridPoint i.val) ∧
        barrierRegion (sinusoidalScriptGridPoint i.val)) ∧
    ¬ (barrierRegion (sinusoidalScriptGridPoint i.val) ∧
        plateauRegion (sinusoidalScriptGridPoint i.val)) ∧
    ¬ (wellRegion (sinusoidalScriptGridPoint i.val) ∧
        plateauRegion (sinusoidalScriptGridPoint i.val)) ∧
    ∀ A : ℝ, sinusoidalValue A (sinusoidalScriptGridPoint i.val)
        = -A * |Real.sin (sinusoidalScriptGridPoint i.val)| ∨
      sinusoidalValue A (sinusoidalScriptGridPoint i.val)
        = A * |Real.sin (sinusoidalScriptGridPoint i.val)| ∨
      sinusoidalValue A (sinusoidalScriptGridPoint i.val) = A / 2 := by
  have hpi := Real.pi_pos
  have hx : sinusoidalScriptGridPoint i.val
      = ((8 * (i.val : ℤ) - 7996 : ℤ) : ℝ) / 1999 * Real.pi := by
    unfold sinusoidalScriptGridPoint gridPoint gridSpacing
    push_cast
    ring
  have habs : |sinusoidalScriptGridPoint i.val|
      = ((|8 * (i.val : ℤ) - 7996| : ℤ) : ℝ) / 1999 * Real.pi := by
    rw [hx, abs_mul, abs_div, abs_of_pos hpi, Int.cast_abs]
    norm_num
  have hne1 : ¬ (wellRegion (sinusoidalScriptGridPoint i.val) ∧
      barrierRegion (sinusoidalScriptGridPoint i.val)) := by
    simp only [wellRegion, barrierRegion, habs]
    rintro ⟨hw, hb, -⟩
    have h1 : ((|8 * (i.val : ℤ) - 7996| : ℤ) : ℝ) / 1999 * Real.pi
        = 1 * Real.pi := by
      rw [one_mul]
      exact le_antisymm hw hb
    have h2 := mul_right_cancel₀ (ne_of_gt hpi) h1
    field_simp at h2
    have h3 : |8 * (i.val : ℤ) - 7996| = 1999 := by exact_mod_cast h2
    rcases abs_cases (8 * (i.val : ℤ) - 7996) with ⟨he, -⟩ | ⟨he, -⟩ <;>
      rw [he] at h3 <;> omega
  have hne2 : ¬ (barrierRegion (sinusoidalScriptGridPoint i.val) ∧
      plateauRegion (sinusoidalScriptGridPoint i.val)) := by
    simp only [barrierRegion, plateauRegion, habs]
    rintro ⟨⟨-, hb⟩, hp⟩
    have h1 : ((|8 * (i.val : ℤ) - 7996| : ℤ) : ℝ) / 1999 * Real.pi
        = (5 / 6 + 2) * Real.pi := le_antisymm hb hp
    have h2 := mul_right_cancel₀ (ne_of_gt hpi) h1
    field_simp at h2
    have h3 : |8 * (i.val : ℤ) - 7996| * 6 = (5 + 2 * 6) * 1999 := by
      exact_mod_cast h2
    rcases abs_cases (8 * (i.val : ℤ) - 7996) with ⟨he, -⟩ | ⟨he, -⟩ <;>
      rw [he] at h3 <;> omega
  have hne3 : ¬ (wellRegion (sinusoidalScriptGridPoint i.val) ∧
      plateauRegion (sinusoidalScriptGridPoint i.val)) := by
    simp only [wellRegion, plateauRegion, habs]
    rintro ⟨hw, hp⟩
    linarith
  refine ⟨hne1, hne2, hne3, fun A => ?_⟩
  rcases le_or_lt |sinusoidalScriptGridPoint i.val| Real.pi with hw | hw
  · left
    have nb : ¬ (Real.pi ≤ |sinusoidalScriptGridPoint i.val| ∧
        |sinusoidalScriptGridPoint i.val| ≤ (5 / 6 + 2) * Real.pi) :=
      fun hb => hne1 ⟨hw, hb⟩
    have np : ¬ ((5 / 6 + 2) * Real.pi
        ≤ |sinusoidalScriptGridPoint i.val|) :=
      fun hp => hne3 ⟨hw, hp⟩
    unfold sinusoidalValue
    rw [if_pos hw, if_neg nb, if_neg np, add_zero, add_zero]
  · rcases le_or_lt |sinusoidalScriptGridPoint i.val|
        ((5 / 6 + 2) * Real.pi) with hb2 | hb2
    · right
      left
      have np : ¬ ((5 / 6 + 2) * Real.pi
          ≤ |sinusoidalScriptGridPoint i.val|) :=
        fun hp => hne2 ⟨⟨hw.le, hb2⟩, hp⟩
      unfold sinusoidalValue
      rw [if_neg (not_le.mpr hw), if_pos (And.intro hw.le hb2),
        if_neg np, zero_add, add_zero]
    · right
      right
      have nb : ¬ (Real.pi ≤ |sinusoidalScriptGridPoint i.val| ∧
          |sinusoidalScriptGridPoint i.val| ≤ (5 / 6 + 2) * Real.pi) :=
        fun hc => absurd (And.right hc) (not_le.mpr hb2)
      unfold sinusoidalValue
      rw [if_neg (not_le.mpr hw), if_neg nb,
        if_pos hb2.le, zero_add, zero_add]
